import Mathlib

set_option maxRecDepth 20000

namespace Lenses

/-!
Shallow embedding of `configuration.go` from the `lenses-go` repository
(package `lenses`): the multi-context configuration model
(`Configuration`, `ClientConfiguration`) and the operations `FormatHost`,
`IsValid`, `Fill`, `GetCurrent`, `RemoveContext`, `FillCurrent`, `Clone`.
Go strings are modelled as `String`/`List Char`, Go's `-1`-returning index
functions as `Int`-valued functions, the `map[string]*ClientConfiguration`
as an association list (the list order models one possible Go map
iteration order; theorems quantify over all lists, hence over all
iteration orders), and a nil map as `Option.none`.
-/

/-- Model of Go `strings.LastIndexByte(s, ':')`: the index of the last
colon in the string, or `-1` when there is none. -/
def lastColonIdx : List Char → Int
  | [] => -1
  | c :: rest =>
    let r := lastColonIdx rest
    if 0 ≤ r then r + 1 else if c = ':' then 0 else -1

/-- Tests whether a string starts with the three characters `"://"`
(the scheme separator searched for by `FormatHost`). -/
def startsWithSchema : List Char → Bool
  | x :: y :: z :: _ => x == ':' && y == '/' && z == '/'
  | _ => false

/-- Model of Go `strings.Index(s, "://")`: the index of the first
occurrence of the scheme separator, or `-1` when there is none. -/
def firstSchemaIdx : List Char → Int
  | [] => -1
  | c :: rest =>
    if startsWithSchema (c :: rest) then 0
    else if 0 ≤ firstSchemaIdx rest then firstSchemaIdx rest + 1 else -1

/-- Model of Go `strings.HasPrefix(s, "https://")`. -/
def startsWithHttps : List Char → Bool
  | a :: b :: c :: d :: e :: f :: g :: h :: _ =>
    a == 'h' && b == 't' && c == 't' && d == 'p' && e == 's' &&
    f == ':' && g == '/' && h == '/'
  | _ => false

/-- Character list of the literal `"http://"` prepended by `FormatHost`. -/
def httpPrefix : List Char := ['h', 't', 't', 'p', ':', '/', '/']

/-- Character list of the literal `"https://"` prepended by `FormatHost`. -/
def httpsPrefix : List Char := ['h', 't', 't', 'p', 's', ':', '/', '/']

/-- Character list of the default port literal `"80"`. -/
def port80 : List Char := ['8', '0']

/-- Character list of the https port literal `"443"`. -/
def port443 : List Char := ['4', '4', '3']

/-- Model of the first step of `FormatHost`: `if c.Host[len(c.Host)-1] == '/'
{ c.Host = c.Host[0 : len(c.Host)-1] }` (one trailing slash is removed). -/
def stripTrailingSlash (h : List Char) : List Char :=
  if h.getLast? = some '/' then h.dropLast else h

/-- Model of `ClientConfiguration.FormatHost` (configuration.go lines
239-278) acting on the `Host` string: strip one trailing slash, find the
last colon and the first `"://"`, decide `hasSchema`/`hasPort`, slice the
port after the last colon, prepend `http://`/`https://` when the schema is
missing, default the port to `443` for an `https://` prefix or `80`
otherwise, and append `:<port>` when no port was present. -/
def formatHost (h0 : List Char) : List Char :=
  if h0 = [] then h0 else
  let h1 := stripTrailingSlash h0
  let portIdx := lastColonIdx h1
  let schemaIdx := firstSchemaIdx h1
  let hasSchema : Bool := decide (0 ≤ schemaIdx)
  let hasPort : Bool := decide (schemaIdx + 1 < portIdx)
  let port := if hasPort then h1.drop (portIdx.toNat + 1) else port80
  let h2 := if !hasSchema then
      (if port = port443 then httpsPrefix ++ h1 else httpPrefix ++ h1)
    else h1
  let port' := if hasSchema && !hasPort && startsWithHttps h2 then port443 else port
  if !hasPort then h2 ++ ':' :: port' else h2

/-- String-level wrapper for `formatHost`, the model of
`ClientConfiguration.FormatHost` on the `Host` field. -/
def FormatHost (s : String) : String := String.mk (formatHost s.data)

/-! Basic facts about the index functions. -/

theorem lastColonIdx_ge (l : List Char) : -1 ≤ lastColonIdx l := by
  induction l with
  | nil => simp [lastColonIdx]
  | cons c rest ih =>
    simp only [lastColonIdx]
    split <;> try split
    all_goals omega

theorem lastColonIdx_lt_length (l : List Char) : lastColonIdx l < l.length := by
  induction l with
  | nil => simp [lastColonIdx]
  | cons c rest ih =>
    simp only [lastColonIdx, List.length_cons]
    split <;> try split
    all_goals (push_cast; omega)

theorem lastColonIdx_append (a b : List Char) :
    lastColonIdx (a ++ b) =
      if 0 ≤ lastColonIdx b then a.length + lastColonIdx b else lastColonIdx a := by
  induction a with
  | nil =>
    simp only [List.nil_append, List.length_nil, Nat.cast_zero, zero_add]
    split
    · rfl
    · have := lastColonIdx_ge b
      simp only [lastColonIdx]
      omega
  | cons c a' ih =>
    simp only [List.cons_append, lastColonIdx, List.append_eq, List.length_cons, ih]
    by_cases hb : 0 ≤ lastColonIdx b
    · have hnn : (0 : Int) ≤ a'.length + lastColonIdx b := by
        have : (0 : Int) ≤ a'.length := by positivity
        omega
      simp only [if_pos hb, if_pos hnn]
      push_cast
      omega
    · simp only [if_neg hb]

theorem firstSchemaIdx_ge (l : List Char) : -1 ≤ firstSchemaIdx l := by
  induction l with
  | nil => simp [firstSchemaIdx]
  | cons c rest ih =>
    simp only [firstSchemaIdx]
    split <;> try split
    all_goals omega

theorem startsWithSchema_cons3 (x y z : Char) (t : List Char) :
    startsWithSchema (x :: y :: z :: t) = (x == ':' && y == '/' && z == '/') := rfl

theorem firstSchemaIdx_add_three_le (l : List Char) :
    0 ≤ firstSchemaIdx l → firstSchemaIdx l + 3 ≤ l.length := by
  induction l with
  | nil => intro h; simp [firstSchemaIdx] at h
  | cons c rest ih =>
    intro h
    simp only [firstSchemaIdx] at h ⊢
    by_cases hs : startsWithSchema (c :: rest) = true
    · simp only [if_pos hs] at h ⊢
      match c, rest, hs with
      | _, _ :: _ :: t, _ =>
        simp only [List.length_cons]
        push_cast
        omega
    · simp only [if_neg hs] at h ⊢
      by_cases hr : 0 ≤ firstSchemaIdx rest
      · simp only [if_pos hr] at h ⊢
        have := ih hr
        simp only [List.length_cons]
        push_cast
        omega
      · simp only [if_neg hr] at h
        omega

theorem firstSchemaIdx_append_left (a b : List Char) (ha : 0 ≤ firstSchemaIdx a) :
    firstSchemaIdx (a ++ b) = firstSchemaIdx a := by
  induction a with
  | nil => simp [firstSchemaIdx] at ha
  | cons c a' ih =>
    simp only [firstSchemaIdx, List.cons_append, List.append_eq] at ha ⊢
    by_cases hs : startsWithSchema (c :: a') = true
    · have hs2 : startsWithSchema (c :: (a' ++ b)) = true := by
        match a', hs with
        | x :: y :: t, hs' => exact hs'
        | [], hs' => simp [startsWithSchema] at hs'
        | [x], hs' => simp [startsWithSchema] at hs'
      rw [if_pos hs2, if_pos hs]
    · by_cases hr : 0 ≤ firstSchemaIdx a'
      · have hs2 : ¬ startsWithSchema (c :: (a' ++ b)) = true := by
          match a', hs with
          | x :: y :: t, hs' => exact hs'
          | [], hs' => simp [firstSchemaIdx] at hr
          | [x], hs' => simp [firstSchemaIdx, startsWithSchema] at hr
        rw [if_neg hs2, if_neg hs, ih hr, if_pos hr]
      · rw [if_neg hs, if_neg hr] at ha
        omega

theorem firstSchemaIdx_http (t : List Char) : firstSchemaIdx (httpPrefix ++ t) = 4 := rfl

theorem firstSchemaIdx_https (t : List Char) : firstSchemaIdx (httpsPrefix ++ t) = 5 := rfl

/-! Branch equations for `formatHost`: one equation per combination of
`hasSchema` and `hasPort`. -/

theorem formatHost_schema_port (h0 : List Char) (hne : h0 ≠ [])
    (hS : 0 ≤ firstSchemaIdx (stripTrailingSlash h0))
    (hP : firstSchemaIdx (stripTrailingSlash h0) + 1 <
      lastColonIdx (stripTrailingSlash h0)) :
    formatHost h0 = stripTrailingSlash h0 := by
  unfold formatHost
  rw [if_neg hne]
  simp [decide_eq_true hS, decide_eq_true hP]

theorem formatHost_schema_noport (h0 : List Char) (hne : h0 ≠ [])
    (hS : 0 ≤ firstSchemaIdx (stripTrailingSlash h0))
    (hP : ¬ firstSchemaIdx (stripTrailingSlash h0) + 1 <
      lastColonIdx (stripTrailingSlash h0)) :
    formatHost h0 = stripTrailingSlash h0 ++ ':' ::
      (if startsWithHttps (stripTrailingSlash h0) then port443 else port80) := by
  unfold formatHost
  rw [if_neg hne]
  simp [decide_eq_true hS, decide_eq_false hP]

theorem formatHost_noschema_port (h0 : List Char) (hne : h0 ≠ [])
    (hS : ¬ 0 ≤ firstSchemaIdx (stripTrailingSlash h0))
    (hP : firstSchemaIdx (stripTrailingSlash h0) + 1 <
      lastColonIdx (stripTrailingSlash h0)) :
    formatHost h0 =
      (if (stripTrailingSlash h0).drop ((lastColonIdx (stripTrailingSlash h0)).toNat + 1)
          = port443
        then httpsPrefix ++ stripTrailingSlash h0
        else httpPrefix ++ stripTrailingSlash h0) := by
  unfold formatHost
  rw [if_neg hne]
  simp [decide_eq_false hS, decide_eq_true hP]

theorem formatHost_noschema_noport (h0 : List Char) (hne : h0 ≠ [])
    (hS : ¬ 0 ≤ firstSchemaIdx (stripTrailingSlash h0))
    (hP : ¬ firstSchemaIdx (stripTrailingSlash h0) + 1 <
      lastColonIdx (stripTrailingSlash h0)) :
    formatHost h0 = (httpPrefix ++ stripTrailingSlash h0) ++ ':' :: port80 := by
  unfold formatHost
  rw [if_neg hne]
  have h80 : port80 ≠ port443 := by decide
  simp [decide_eq_false hS, decide_eq_false hP, h80]

/-- Strings that already carry a scheme and a port and do not end in a
slash are fixed points of `formatHost`. -/
theorem formatHost_of_fixed (s : List Char) (h1 : s ≠ [])
    (h2 : s.getLast? ≠ some '/') (h3 : 0 ≤ firstSchemaIdx s)
    (h4 : firstSchemaIdx s + 1 < lastColonIdx s) : formatHost s = s := by
  have hstrip : stripTrailingSlash s = s := by
    unfold stripTrailingSlash
    rw [if_neg h2]
  have h3' : 0 ≤ firstSchemaIdx (stripTrailingSlash s) := by rw [hstrip]; exact h3
  have h4' : firstSchemaIdx (stripTrailingSlash s) + 1 <
      lastColonIdx (stripTrailingSlash s) := by rw [hstrip]; exact h4
  rw [formatHost_schema_port s h1 h3' h4', hstrip]

/-- Concrete last characters of the appended `":<port>"` suffixes. -/
theorem getLast?_colon_port443 : (':' :: port443).getLast? = some '3' := rfl

theorem getLast?_colon_port80 : (':' :: port80).getLast? = some '0' := rfl

theorem lastColonIdx_colon_port443 : lastColonIdx (':' :: port443) = 0 := rfl

theorem lastColonIdx_colon_port80 : lastColonIdx (':' :: port80) = 0 := rfl

/-- Output characterisation of `formatHost`: on a non-empty host that does
not end in a double slash, the result is non-empty, does not end in a
slash, contains a scheme separator, and has a colon (a port marker) after
it — i.e. the result satisfies the premises of `formatHost_of_fixed`. -/
theorem formatHost_spec (h0 : List Char) (h0ne : h0 ≠ [])
    (hs : (stripTrailingSlash h0).getLast? ≠ some '/') :
    formatHost h0 ≠ [] ∧
    (formatHost h0).getLast? ≠ some '/' ∧
    0 ≤ firstSchemaIdx (formatHost h0) ∧
    firstSchemaIdx (formatHost h0) + 1 < lastColonIdx (formatHost h0) := by
  by_cases hS : 0 ≤ firstSchemaIdx (stripTrailingSlash h0)
  · by_cases hP : firstSchemaIdx (stripTrailingSlash h0) + 1 <
        lastColonIdx (stripTrailingSlash h0)
    · rw [formatHost_schema_port h0 h0ne hS hP]
      refine ⟨?_, hs, hS, hP⟩
      intro hnil
      rw [hnil] at hP hS
      simp [firstSchemaIdx, lastColonIdx] at hP hS
    · rw [formatHost_schema_noport h0 h0ne hS hP]
      have h3le := firstSchemaIdx_add_three_le _ hS
      cases hw : startsWithHttps (stripTrailingSlash h0)
      · rw [if_neg (by simp [hw])]
        refine ⟨by simp, ?_, ?_, ?_⟩
        · rw [List.getLast?_append, getLast?_colon_port80]
          simp
        · rw [firstSchemaIdx_append_left _ _ hS]
          exact hS
        · rw [firstSchemaIdx_append_left _ _ hS,
            lastColonIdx_append _ _, lastColonIdx_colon_port80]
          rw [if_pos (by omega)]
          omega
      · rw [if_pos (by simp [hw])]
        refine ⟨by simp, ?_, ?_, ?_⟩
        · rw [List.getLast?_append, getLast?_colon_port443]
          simp
        · rw [firstSchemaIdx_append_left _ _ hS]
          exact hS
        · rw [firstSchemaIdx_append_left _ _ hS,
            lastColonIdx_append _ _, lastColonIdx_colon_port443]
          rw [if_pos (by omega)]
          omega
  · have hSm1 : firstSchemaIdx (stripTrailingSlash h0) = -1 := by
      have := firstSchemaIdx_ge (stripTrailingSlash h0)
      omega
    by_cases hP : firstSchemaIdx (stripTrailingSlash h0) + 1 <
        lastColonIdx (stripTrailingSlash h0)
    · have hpos : 0 < lastColonIdx (stripTrailingSlash h0) := by omega
      have hlt := lastColonIdx_lt_length (stripTrailingSlash h0)
      have hone : stripTrailingSlash h0 ≠ [] := by
        intro hnil
        rw [hnil] at hpos
        simp [lastColonIdx] at hpos
      obtain ⟨x, hx⟩ : ∃ x, (stripTrailingSlash h0).getLast? = some x := by
        cases hgl : (stripTrailingSlash h0).getLast? with
        | none => exact absurd (List.getLast?_eq_none_iff.mp hgl) hone
        | some x => exact ⟨x, rfl⟩
      rw [formatHost_noschema_port h0 h0ne hS hP]
      split
      · refine ⟨by simp [httpsPrefix], ?_, ?_, ?_⟩
        · rw [List.getLast?_append, hx]
          have hor : (some x).or httpsPrefix.getLast? = some x := rfl
          rw [hor]
          rw [hx] at hs
          exact hs
        · rw [firstSchemaIdx_https]
          omega
        · rw [firstSchemaIdx_https, lastColonIdx_append,
            if_pos (by omega)]
          simp only [httpsPrefix, List.length_cons]
          omega
      · refine ⟨by simp [httpPrefix], ?_, ?_, ?_⟩
        · rw [List.getLast?_append, hx]
          have hor : (some x).or httpPrefix.getLast? = some x := rfl
          rw [hor]
          rw [hx] at hs
          exact hs
        · rw [firstSchemaIdx_http]
          omega
        · rw [firstSchemaIdx_http, lastColonIdx_append,
            if_pos (by omega)]
          simp only [httpPrefix, List.length_cons]
          omega
    · rw [formatHost_noschema_noport h0 h0ne hS hP]
      refine ⟨by simp, ?_, ?_, ?_⟩
      · rw [List.getLast?_append, getLast?_colon_port80]
        simp
      · rw [List.append_assoc, firstSchemaIdx_http]
        omega
      · rw [List.append_assoc, firstSchemaIdx_http,
          ← List.append_assoc, lastColonIdx_append, lastColonIdx_colon_port80,
          if_pos (by omega)]
        simp only [List.length_append, httpPrefix, List.length_cons]
        push_cast
        omega

/-- Idempotency of `formatHost` on inputs that do not end in a double
slash (list level). -/
theorem formatHost_idem_list (h0 : List Char)
    (hs : (stripTrailingSlash h0).getLast? ≠ some '/') :
    formatHost (formatHost h0) = formatHost h0 := by
  by_cases hne : h0 = []
  · rw [hne]
    rfl
  · obtain ⟨a, b, c, d⟩ := formatHost_spec h0 hne hs
    exact formatHost_of_fixed _ a b c d

/-- Nonemptiness is preserved by `formatHost`, with no side condition. -/
theorem formatHost_ne_nil (h0 : List Char) (hne : h0 ≠ []) :
    formatHost h0 ≠ [] := by
  by_cases hS : 0 ≤ firstSchemaIdx (stripTrailingSlash h0)
  · by_cases hP : firstSchemaIdx (stripTrailingSlash h0) + 1 <
        lastColonIdx (stripTrailingSlash h0)
    · rw [formatHost_schema_port h0 hne hS hP]
      intro hnil
      rw [hnil] at hP
      simp [firstSchemaIdx, lastColonIdx] at hP
    · rw [formatHost_schema_noport h0 hne hS hP]
      simp
  · by_cases hP : firstSchemaIdx (stripTrailingSlash h0) + 1 <
        lastColonIdx (stripTrailingSlash h0)
    · rw [formatHost_noschema_port h0 hne hS hP]
      split
      · simp [httpsPrefix]
      · simp [httpPrefix]
    · rw [formatHost_noschema_noport h0 hne hS hP]
      simp

/-!
The configuration data model. The Go `Authentication` field is an
interface value; for the claims only its presence (`!= nil`) matters, so
it is modelled as an `Option` of a variant type.
-/

/-- Modelled from the spec: the concrete `Authentication` variants
(`BasicAuthentication{username, password}`, `KerberosAuthentication{...}`)
are declared outside the sources at hand (configuration.go only type
asserts against them); the spec describes a closed set of mutually
exclusive credential kinds. A Go `nil` interface value is `Option.none`
over this type. -/
inductive Authentication where
  | basic (username password : String)
  | kerberos (confFile : String)
deriving DecidableEq

/-- Model of the Go struct `ClientConfiguration` (configuration.go lines
43-80): `Host`, `Authentication` (interface, `none` = nil), `Token`,
`Timeout`, `Debug`. -/
structure ClientConfiguration where
  Host : String
  Authentication : Option Authentication
  Token : String
  Timeout : String
  Debug : Bool
deriving DecidableEq

/-- Zero value of `ClientConfiguration`, as produced by Go's
`new(ClientConfiguration)` / `ClientConfiguration{}`. -/
def ClientConfiguration.zero : ClientConfiguration :=
  { Host := "", Authentication := none, Token := "", Timeout := "", Debug := false }

/-- Model of `(c *ClientConfiguration) IsValid() bool` (configuration.go
lines 100-108). The Go method mutates the receiver through the pointer
(`c.FormatHost()`), so the model returns the updated receiver together
with the boolean result. -/
def ClientConfiguration.IsValid (c : ClientConfiguration) : ClientConfiguration × Bool :=
  if c.Host.length = 0 then (c, false)
  else
    let c' := { c with Host := FormatHost c.Host }
    (c', c'.Host != "" && (c'.Token != "" || c'.Authentication.isSome))

/-- Model of `(c *ClientConfiguration) Fill(other ClientConfiguration) bool`
(configuration.go lines 214-236): field-by-field override of non-empty,
differing fields, then the receiver's `IsValid` (which normalizes `Host`)
supplies the returned boolean. -/
def ClientConfiguration.Fill (c other : ClientConfiguration) :
    ClientConfiguration × Bool :=
  let c1 := if other.Host != "" && other.Host != c.Host
    then { c with Host := other.Host } else c
  let c2 := if other.Authentication.isSome
    then { c1 with Authentication := other.Authentication } else c1
  let c3 := if other.Token != "" && other.Token != c2.Token
    then { c2 with Token := other.Token } else c2
  let c4 := if other.Timeout != "" && other.Timeout != c3.Timeout
    then { c3 with Timeout := other.Timeout } else c3
  let c5 := if c4.Debug != other.Debug
    then { c4 with Debug := other.Debug } else c4
  c5.IsValid

/-- Association list standing for Go's `map[string]*ClientConfiguration`.
The list order models one (arbitrary) Go map iteration order. -/
abbrev ContextMap := List (String × ClientConfiguration)

/-- Model of the Go map read `m[k]`. -/
def mapGet (m : ContextMap) (k : String) : Option ClientConfiguration :=
  match m with
  | [] => none
  | (k', v) :: rest => if k' = k then some v else mapGet rest k

/-- Model of the Go map assignment `m[k] = v`: overwrite the entry when
the key is present, otherwise add a new entry. -/
def mapInsert (m : ContextMap) (k : String) (v : ClientConfiguration) : ContextMap :=
  if (mapGet m k).isSome
    then m.map (fun p => if p.1 = k then (k, v) else p)
    else m ++ [(k, v)]

/-- Model of Go `delete(m, k)`. -/
def mapDelete (m : ContextMap) (k : String) : ContextMap :=
  m.filter (fun p => p.1 != k)

/-- Model of the Go struct `Configuration` (configuration.go lines 37-40).
`Contexts = none` models a nil map (the zero value), distinct from an
allocated empty map `some []`: Go reads and deletes treat the two alike,
but assigning into a nil map panics. -/
structure Configuration where
  CurrentContext : String
  Contexts : Option ContextMap
deriving DecidableEq

/-- Zero value `Configuration{}`. -/
def Configuration.zero : Configuration := { CurrentContext := "", Contexts := none }

/-- Model of `var DefaultContextKey = "master"` (configuration.go line 111). -/
def DefaultContextKey : String := "master"

/-- Model of `(c *Configuration) SetCurrent(name)` (configuration.go
lines 141-143). -/
def Configuration.SetCurrent (c : Configuration) (currentContextName : String) :
    Configuration :=
  { c with CurrentContext := currentContextName }

/-- Model of `(c *Configuration) GetCurrent() *ClientConfiguration`
(configuration.go lines 114-131): a nil `Contexts` map is replaced by an
empty one; a hit returns the entry; on a miss a zero-valued entry is
created under `CurrentContext` (defaulted to `DefaultContextKey` when
empty) and returned. The returned pointer is modelled by returning the
entry's value, which the accompanying theorem shows is always present in
the post-state map. -/
def Configuration.GetCurrent (c : Configuration) :
    ClientConfiguration × Configuration :=
  let m := match c.Contexts with
    | none => []
    | some l => l
  match mapGet m c.CurrentContext with
  | some cfg => (cfg, { c with Contexts := some m })
  | none =>
    let cfg := ClientConfiguration.zero
    let cur := if c.CurrentContext = "" then DefaultContextKey else c.CurrentContext
    (cfg, { CurrentContext := cur, Contexts := some (mapInsert m cur cfg) })

/-- Model of the `for name, cfg := range c.Contexts` loop inside
`RemoveContext` (configuration.go lines 160-169): entries are visited in
list order; the entry named `skip` is passed over (`continue`); every
other visited entry has `IsValid` called on it, which rewrites its `Host`
in place; the loop stops at the first entry whose `IsValid` returns true
and reports its name. -/
def findValidLoop (skip : String) :
    ContextMap → ContextMap × Option String
  | [] => ([], none)
  | (name, cfg) :: rest =>
    if name = skip then
      let r := findValidLoop skip rest
      ((name, cfg) :: r.1, r.2)
    else
      match cfg.IsValid with
      | (cfg', true) => ((name, cfg') :: rest, some name)
      | (cfg', false) =>
        let r := findValidLoop skip rest
        ((name, cfg') :: r.1, r.2)

/-- Model of `(c *Configuration) RemoveContext(contextName string) bool`
(configuration.go lines 154-182): a missing key returns false; removing
the current context requires a valid replacement among the other entries
(found by `findValidLoop`, which normalizes the hosts it inspects);
removing a non-current context always succeeds. -/
def Configuration.RemoveContext (c : Configuration) (contextName : String) :
    Configuration × Bool :=
  let m := c.Contexts.getD []
  if (mapGet m contextName).isSome then
    if c.CurrentContext = contextName then
      match findValidLoop contextName m with
      | (m', some name) =>
        ({ c.SetCurrent name with Contexts := some (mapDelete m' contextName) }, true)
      | (m', none) => ({ c with Contexts := some m' }, false)
    else
      ({ c with Contexts := some (mapDelete m contextName) }, true)
  else (c, false)

/-- Model of `(c *Configuration) FillCurrent(cfg ClientConfiguration)`
(configuration.go lines 197-207). On a missing current key, a valid `cfg`
(normalized by the `IsValid` call) is stored under it — an assignment
that panics when `Contexts` is the nil map, modelled by `none`; on a hit,
the entry is `Fill`ed through its pointer. -/
def Configuration.FillCurrent (c : Configuration) (cfg : ClientConfiguration) :
    Option Configuration :=
  let context := c.CurrentContext
  let m := c.Contexts.getD []
  match mapGet m context with
  | none =>
    let r := cfg.IsValid
    if r.2 then
      match c.Contexts with
      | none => none
      | some l => some { c with Contexts := some (mapInsert l context r.1) }
    else some c
  | some entry =>
    some { c with Contexts := some (mapInsert m context (entry.Fill cfg).1) }

/-!
Heap-level model for `Clone` (configuration.go lines 185-194). The deep
copy claim is about aliasing, so here the pointers in
`map[string]*ClientConfiguration` are explicit: a heap is a list of
`ClientConfiguration` cells addressed by index, allocation appends a cell,
and a context map holds addresses.
-/

/-- Configuration with explicit pointers: context entries are heap
addresses. -/
structure ConfigurationH where
  CurrentContext : String
  Contexts : List (String × Nat)
deriving DecidableEq

/-- Model of the loop body of `Clone`: `vCopy := *v;
clone.Contexts[k] = &vCopy` — read the pointed-to struct, allocate a
fresh cell holding the copy, and store the fresh address under the same
key. -/
def cloneLoop : List ClientConfiguration → List (String × Nat) →
    List ClientConfiguration × List (String × Nat)
  | heap, [] => (heap, [])
  | heap, (k, p) :: rest =>
    let vCopy := heap.getD p ClientConfiguration.zero
    let r := cloneLoop (heap ++ [vCopy]) rest
    (r.1, (k, heap.length) :: r.2)

/-- Model of `(c *Configuration) Clone() Configuration`: a new map whose
entries point at freshly allocated copies of the original structs. -/
def ConfigurationH.Clone (heap : List ClientConfiguration) (c : ConfigurationH) :
    List ClientConfiguration × ConfigurationH :=
  let r := cloneLoop heap c.Contexts
  (r.1, { CurrentContext := c.CurrentContext, Contexts := r.2 })

/-! Helper lemmas about strings, `IsValid`, the map operations, the
`RemoveContext` loop and the clone loop. -/

theorem string_data_eq_nil_iff (s : String) : s = "" ↔ s.data = [] :=
  ⟨fun h => by rw [h], fun h => String.ext (by rw [h])⟩

theorem string_length_ne_zero (s : String) (h : s ≠ "") : ¬ s.length = 0 := by
  intro hl
  exact h ((string_data_eq_nil_iff s).mpr (List.length_eq_zero.mp hl))

theorem string_mk_ne_empty (l : List Char) (h : l ≠ []) : String.mk l ≠ "" := by
  intro he
  exact h ((string_data_eq_nil_iff (String.mk l)).mp he)

theorem FormatHost_ne_empty (s : String) (h : s ≠ "") : FormatHost s ≠ "" := by
  unfold FormatHost
  apply string_mk_ne_empty
  apply formatHost_ne_nil
  intro hd
  exact h ((string_data_eq_nil_iff s).mpr hd)

/-- Unfolding of `ClientConfiguration.IsValid` on a non-empty host: the
receiver comes back with its `Host` rewritten to the normalized form and
every other field untouched. -/
theorem IsValid_of_ne_empty (c : ClientConfiguration) (h : c.Host ≠ "") :
    c.IsValid = ({ c with Host := FormatHost c.Host },
      (FormatHost c.Host != "" && (c.Token != "" || c.Authentication.isSome))) := by
  unfold ClientConfiguration.IsValid
  rw [if_neg (string_length_ne_zero _ h)]

/-- A configuration reported valid stays valid when `IsValid` runs again
on the updated receiver. -/
theorem IsValid_stable (c : ClientConfiguration) (h : (c.IsValid).2 = true) :
    ((c.IsValid).1.IsValid).2 = true := by
  by_cases hh : c.Host = ""
  · simp [ClientConfiguration.IsValid, hh] at h
  · rw [IsValid_of_ne_empty c hh] at h ⊢
    rw [IsValid_of_ne_empty _ (FormatHost_ne_empty _ hh)]
    simp only [Bool.and_eq_true, bne_iff_ne, ne_eq] at h ⊢
    exact ⟨FormatHost_ne_empty _ h.1, h.2⟩

theorem mapGet_mapDelete_self (m : ContextMap) (k : String) :
    mapGet (mapDelete m k) k = none := by
  induction m with
  | nil => rfl
  | cons p rest ih =>
    obtain ⟨k1, v1⟩ := p
    simp only [mapDelete, List.filter_cons] at ih ⊢
    by_cases hk : k1 = k
    · simp only [hk, bne_self_eq_false]
      exact ih
    · rw [if_pos (by simpa [bne_iff_ne] using hk)]
      simp only [mapGet, if_neg hk]
      exact ih

theorem mapGet_mapDelete_ne (m : ContextMap) (k k2 : String) (hne : k2 ≠ k) :
    mapGet (mapDelete m k) k2 = mapGet m k2 := by
  induction m with
  | nil => rfl
  | cons p rest ih =>
    obtain ⟨k1, v1⟩ := p
    simp only [mapDelete, List.filter_cons] at ih ⊢
    by_cases hk : k1 = k
    · have hk2 : ¬ k = k2 := fun he => hne he.symm
      simp only [hk, bne_self_eq_false, if_neg (by decide : ¬ false = true)]
      rw [show mapGet ((k, v1) :: rest) k2 = mapGet rest k2 by
        simp [mapGet, if_neg hk2]]
      exact ih
    · rw [if_pos (by simpa [bne_iff_ne] using hk)]
      simp only [mapGet]
      by_cases h12 : k1 = k2
      · rw [if_pos h12, if_pos h12]
      · rw [if_neg h12, if_neg h12]
        exact ih

theorem mapGet_append (a b : ContextMap) (k : String) :
    mapGet (a ++ b) k = (mapGet a k).or (mapGet b k) := by
  induction a with
  | nil => rfl
  | cons p rest ih =>
    obtain ⟨k1, v1⟩ := p
    simp only [List.cons_append, mapGet]
    by_cases h1 : k1 = k
    · rw [if_pos h1, if_pos h1]
      rfl
    · rw [if_neg h1, if_neg h1]
      exact ih

theorem mapGet_map_replace (m : ContextMap) (k : String) (v : ClientConfiguration) :
    mapGet (m.map (fun p => if p.1 = k then (k, v) else p)) k =
      (mapGet m k).map (fun _ => v) := by
  induction m with
  | nil => rfl
  | cons p rest ih =>
    obtain ⟨k1, v1⟩ := p
    simp only [List.map_cons]
    by_cases h1 : k1 = k
    · rw [if_pos (show (k1, v1).1 = k from h1)]
      simp [mapGet, if_pos h1]
    · rw [if_neg (show ¬ (k1, v1).1 = k from h1)]
      simp only [mapGet, if_neg h1]
      exact ih

theorem mapGet_mapInsert_self (m : ContextMap) (k : String) (v : ClientConfiguration) :
    mapGet (mapInsert m k v) k = some v := by
  unfold mapInsert
  by_cases hp : (mapGet m k).isSome
  · rw [if_pos hp, mapGet_map_replace]
    obtain ⟨w, hw⟩ := Option.isSome_iff_exists.mp hp
    rw [hw]
    rfl
  · rw [if_neg hp, mapGet_append]
    have : mapGet m k = none := Option.not_isSome_iff_eq_none.mp hp
    rw [this]
    simp [mapGet]

theorem mapGet_of_mem_nodup (m : ContextMap) (k : String) (v : ClientConfiguration)
    (hmem : (k, v) ∈ m) (hnd : (m.map Prod.fst).Nodup) : mapGet m k = some v := by
  induction m with
  | nil => simp at hmem
  | cons p rest ih =>
    obtain ⟨k1, v1⟩ := p
    simp only [List.map_cons, List.nodup_cons] at hnd
    rcases List.mem_cons.mp hmem with h | h
    · cases h
      simp [mapGet]
    · by_cases h1 : k1 = k
      · exfalso
        apply hnd.1
        rw [h1]
        exact List.mem_map_of_mem Prod.fst h
      · simp only [mapGet, if_neg h1]
        exact ih h hnd.2

/-- The replacement-search loop keeps the key list (hence the key set and
the length) of the context map intact, whatever it finds. -/
theorem findValidLoop_keys (skip : String) (l : ContextMap) :
    (findValidLoop skip l).1.map Prod.fst = l.map Prod.fst := by
  induction l with
  | nil => rfl
  | cons p rest ih =>
    obtain ⟨name, cfg⟩ := p
    simp only [findValidLoop]
    by_cases hn : name = skip
    · rw [if_pos hn]
      simp [ih]
    · rw [if_neg hn]
      rcases hval : cfg.IsValid with ⟨cfg', b⟩
      cases b
      · simp [hval, ih]
      · simp [hval]

/-- When the replacement-search loop reports a name, that name differs
from the skipped one and the updated map holds a valid entry under it. -/
theorem findValidLoop_found (skip : String) (l : ContextMap) (n : String)
    (h : (findValidLoop skip l).2 = some n) :
    n ≠ skip ∧ ∃ e, (n, e) ∈ (findValidLoop skip l).1 ∧ (e.IsValid).2 = true := by
  induction l with
  | nil => simp [findValidLoop] at h
  | cons p rest ih =>
    obtain ⟨name, cfg⟩ := p
    simp only [findValidLoop] at h ⊢
    by_cases hn : name = skip
    · rw [if_pos hn] at h ⊢
      obtain ⟨h1, e, he, hv⟩ := ih h
      exact ⟨h1, e, List.mem_cons_of_mem _ he, hv⟩
    · rw [if_neg hn] at h ⊢
      rcases hval : cfg.IsValid with ⟨cfg', b⟩
      cases b
      · simp only [hval] at h ⊢
        obtain ⟨h1, e, he, hv⟩ := ih h
        exact ⟨h1, e, List.mem_cons_of_mem _ he, hv⟩
      · simp only [hval] at h ⊢
        have hnn : n = name := by
          cases h
          rfl
        subst hnn
        refine ⟨hn, cfg', List.mem_cons_self _ _, ?_⟩
        have := IsValid_stable cfg (by rw [hval])
        rw [hval] at this
        exact this

/-- Every address allocated by the clone loop lies beyond the input heap. -/
theorem cloneLoop_fresh (ctxs : List (String × Nat)) :
    ∀ heap : List ClientConfiguration, ∀ q ∈ (cloneLoop heap ctxs).2,
      heap.length ≤ q.2 := by
  induction ctxs with
  | nil =>
    intro heap q hq
    simp [cloneLoop] at hq
  | cons p rest ih =>
    obtain ⟨k, ptr⟩ := p
    intro heap q hq
    simp only [cloneLoop, List.mem_cons] at hq
    rcases hq with h | h
    · rw [h]
    · have := ih (heap ++ [heap.getD ptr ClientConfiguration.zero]) q h
      simp only [List.length_append, List.length_cons, List.length_nil] at this
      omega

/-! Claim theorems. -/

/-- C1 (counterexample): `FormatHost` is not idempotent as claimed for
every string. On `"example.com:8080//"` one application yields
`"http://example.com:8080/"` (the kept trailing slash is part of the
sliced "port"), and a second application strips that slash, yielding
`"http://example.com:8080"`. -/
theorem FormatHost_not_idem :
    FormatHost (FormatHost "example.com:8080//") ≠ FormatHost "example.com:8080//" := by
  decide

/-- C1 (amended): `FormatHost` is idempotent on every host that does not
end in a double slash — i.e. whenever the host, after removal of one
trailing slash, still does not end with `'/'` —
`FormatHost (FormatHost h) = FormatHost h`. -/
theorem FormatHost_idem (h : String)
    (hs : (stripTrailingSlash h.data).getLast? ≠ some '/') :
    FormatHost (FormatHost h) = FormatHost h := by
  have : FormatHost h = String.mk (formatHost h.data) := rfl
  rw [this]
  unfold FormatHost
  exact congrArg String.mk (formatHost_idem_list h.data hs)

/-- C1 (witness): the amended idempotency applied at `"example.com"`. -/
theorem FormatHost_idem_witness :
    (stripTrailingSlash ("example.com" : String).data).getLast? ≠ some '/' ∧
    FormatHost (FormatHost "example.com") = FormatHost "example.com" :=
  ⟨by decide, FormatHost_idem "example.com" (by decide)⟩

/-- C6: the three input/output pairs of `FormatHost` given in the spec:
`"example.com"` gains scheme `http://` and port `80`; `"example.com:443"`
gains scheme `https://` (port `443` present); `"https://example.com/"`
loses the trailing slash and gains port `443` (scheme `https://`). -/
theorem FormatHost_examples :
    FormatHost "example.com" = "http://example.com:80" ∧
    FormatHost "example.com:443" = "https://example.com:443" ∧
    FormatHost "https://example.com/" = "https://example.com:443" := by
  refine ⟨?_, ?_, ?_⟩ <;> decide

/-- Projection of `IsValid_of_ne_empty` used to chase `Host` through
record updates. -/
theorem IsValid_fst_Host (c : ClientConfiguration) (h : c.Host ≠ "") :
    ((c.IsValid).1).Host = FormatHost c.Host := by
  rw [IsValid_of_ne_empty c h]

/-- Sample client configuration with a raw (non-normalized) host and a
token. -/
def sampleToken : ClientConfiguration := ⟨"example.com", none, "tok", "", false⟩

/-- Sample client configuration with a raw host and no credentials, hence
invalid. -/
def sampleNoCred : ClientConfiguration := ⟨"example.com", none, "", "", false⟩

/-- C9: `ClientConfiguration.IsValid` is not a pure predicate — on any
receiver with non-empty `Host` it rewrites `Host` to its
`FormatHost`-normalized form and leaves `Token`, `Timeout`, `Debug` and
`Authentication` unchanged (the record-update equality asserts exactly
this). -/
theorem IsValid_normalizes (c : ClientConfiguration) (h : c.Host ≠ "") :
    (c.IsValid).1 = { c with Host := FormatHost c.Host } := by
  rw [IsValid_of_ne_empty c h]

/-- C9 (witness): `IsValid_normalizes` at a concrete receiver whose host
is not yet normalized. -/
theorem IsValid_normalizes_witness :
    sampleToken.Host ≠ "" ∧
    (sampleToken.IsValid).1 = { sampleToken with Host := FormatHost "example.com" } :=
  ⟨by decide, IsValid_normalizes sampleToken (by decide)⟩

/-- C3 (counterexample): after `Fill` the receiver's `Host` is not
`other`'s host verbatim — `Fill` ends with `IsValid`, which normalizes
the freshly copied host. -/
theorem Fill_host_not_verbatim :
    ((ClientConfiguration.zero.Fill sampleNoCred).1).Host ≠ sampleNoCred.Host := by
  decide

/-- C3 (amended): for every receiver `c` and `other` with non-empty host
differing from `c`'s, after `c.Fill other` the receiver's `Host` equals
the `FormatHost`-normalized form of `other`'s host (so it equals `other`'s
host verbatim only when the latter is already normalized). -/
theorem Fill_host_normalized (c other : ClientConfiguration)
    (h1 : other.Host ≠ "") (h2 : other.Host ≠ c.Host) :
    ((c.Fill other).1).Host = FormatHost other.Host := by
  have hb : (other.Host != "" && other.Host != c.Host) = true := by
    simp [bne_iff_ne, h1, h2]
  simp only [ClientConfiguration.Fill, hb, if_true]
  split
  all_goals split
  all_goals split
  all_goals split
  all_goals rw [IsValid_fst_Host]
  all_goals first
    | rfl
    | exact h1

/-- C3 (witness): `Fill_host_normalized` at concrete configurations. -/
theorem Fill_host_normalized_witness :
    sampleNoCred.Host ≠ "" ∧ sampleNoCred.Host ≠ ClientConfiguration.zero.Host ∧
    ((ClientConfiguration.zero.Fill sampleNoCred).1).Host = FormatHost sampleNoCred.Host :=
  ⟨by decide, by decide,
   Fill_host_normalized ClientConfiguration.zero sampleNoCred (by decide) (by decide)⟩

/-- Sample valid client configuration (host plus token). -/
def sampleValid : ClientConfiguration := ⟨"h", none, "t", "", false⟩

/-- C10: `FillCurrent` does not self-heal a nil `Contexts` map: when
`Contexts` is nil and the supplied configuration passes `IsValid`, the
assignment into the nil map is reached — a Go run-time panic, `none` in
the model. -/
theorem FillCurrent_nil_map_panics (c : Configuration) (cfg : ClientConfiguration)
    (hnil : c.Contexts = none) (hvalid : (cfg.IsValid).2 = true) :
    c.FillCurrent cfg = none := by
  simp [Configuration.FillCurrent, hnil, mapGet, hvalid]

/-- C10 (witness): `FillCurrent_nil_map_panics` on the zero configuration
and a concrete valid client configuration. -/
theorem FillCurrent_nil_map_panics_witness :
    Configuration.zero.Contexts = none ∧ (sampleValid.IsValid).2 = true ∧
    Configuration.zero.FillCurrent sampleValid = none :=
  ⟨rfl, by decide, FillCurrent_nil_map_panics Configuration.zero sampleValid rfl (by decide)⟩

/-- C4: `GetCurrent` always hands back an actual entry of the post-state
`Contexts` map (the model of returning a non-nil pointer into the map; no
error case exists), and on the zero-valued `Configuration{}` it leaves
`CurrentContext = "master"` and exactly one entry, a zero-valued
`ClientConfiguration` under that key. -/
theorem GetCurrent_never_nil :
    (∀ c : Configuration, ∃ k,
      mapGet ((c.GetCurrent).2.Contexts.getD []) k = some (c.GetCurrent).1) ∧
    Configuration.zero.GetCurrent =
      (ClientConfiguration.zero,
        ⟨"master", some [("master", ClientConfiguration.zero)]⟩) := by
  constructor
  · intro c
    cases hg : mapGet
        (match c.Contexts with | none => ([] : ContextMap) | some l => l)
        c.CurrentContext with
    | some cfg =>
      refine ⟨c.CurrentContext, ?_⟩
      simp only [Configuration.GetCurrent, hg]
      simpa using hg
    | none =>
      refine ⟨if c.CurrentContext = "" then DefaultContextKey else c.CurrentContext, ?_⟩
      simp only [Configuration.GetCurrent, hg]
      simpa using mapGet_mapInsert_self _ _ _
  · decide

/-- Configuration with a sole entry whose key differs from the current
context. -/
def soleConfig : Configuration := ⟨"b", some [("a", ClientConfiguration.zero)]⟩

/-- C2 (counterexample): on a `Configuration` with exactly one entry
whose key is not the current context, `RemoveContext` on that sole
entry's name returns true and empties the map — the claim's "always
returns false and leaves the map unchanged" fails. -/
theorem RemoveContext_sole_cex :
    (soleConfig.RemoveContext "a").2 = true ∧
    (soleConfig.RemoveContext "a").1.Contexts = some [] := by
  decide

/-- C2 (amended): on a `Configuration` whose `Contexts` map has exactly
one entry and whose `CurrentContext` is that entry's key, `RemoveContext`
on that name returns false and leaves the configuration unchanged. -/
theorem RemoveContext_sole_current (c : Configuration) (k : String)
    (cfg : ClientConfiguration) (hctx : c.Contexts = some [(k, cfg)])
    (hcur : c.CurrentContext = k) :
    c.RemoveContext k = (c, false) := by
  obtain ⟨cur, ctxs⟩ := c
  simp only at hctx hcur
  subst hctx
  subst hcur
  simp [Configuration.RemoveContext, mapGet, findValidLoop]

/-- C2 (witness): the amended statement on a one-entry configuration that
is also current. -/
theorem RemoveContext_sole_current_witness :
    (⟨"a", some [("a", sampleValid)]⟩ : Configuration).Contexts =
      some [("a", sampleValid)] ∧
    (⟨"a", some [("a", sampleValid)]⟩ : Configuration).CurrentContext = "a" ∧
    (⟨"a", some [("a", sampleValid)]⟩ : Configuration).RemoveContext "a" =
      ((⟨"a", some [("a", sampleValid)]⟩ : Configuration), false) :=
  ⟨rfl, rfl,
   RemoveContext_sole_current ⟨"a", some [("a", sampleValid)]⟩ "a" sampleValid rfl rfl⟩

/-- Configuration with a current entry `"a"` and a second entry `"b"`. -/
def twoConfig : Configuration :=
  ⟨"a", some [("a", ClientConfiguration.zero), ("b", sampleNoCred)]⟩

/-- C7: removing an existing, non-current context always returns true,
removes exactly that entry (every other key reads as before), and leaves
`CurrentContext` unchanged. -/
theorem RemoveContext_noncurrent (c : Configuration) (name : String)
    (hmem : (mapGet ((c.Contexts).getD []) name).isSome = true)
    (hcur : ¬ c.CurrentContext = name) :
    (c.RemoveContext name).2 = true ∧
    (c.RemoveContext name).1.CurrentContext = c.CurrentContext ∧
    mapGet ((c.RemoveContext name).1.Contexts.getD []) name = none ∧
    ∀ k, k ≠ name →
      mapGet ((c.RemoveContext name).1.Contexts.getD []) k =
        mapGet ((c.Contexts).getD []) k := by
  simp only [Configuration.RemoveContext, if_pos hmem, if_neg hcur]
  refine ⟨trivial, trivial, ?_, ?_⟩
  · simpa using mapGet_mapDelete_self ((c.Contexts).getD []) name
  · intro k hk
    simpa using mapGet_mapDelete_ne ((c.Contexts).getD []) name k hk

/-- C7 (witness): `RemoveContext_noncurrent` removing `"b"` from
`twoConfig`, whose current context is `"a"`. -/
theorem RemoveContext_noncurrent_witness :
    (mapGet ((twoConfig.Contexts).getD []) "b").isSome = true ∧
    (¬ twoConfig.CurrentContext = "b") ∧
    ((twoConfig.RemoveContext "b").2 = true ∧
     (twoConfig.RemoveContext "b").1.CurrentContext = twoConfig.CurrentContext ∧
     mapGet ((twoConfig.RemoveContext "b").1.Contexts.getD []) "b" = none ∧
     ∀ k, k ≠ "b" →
       mapGet ((twoConfig.RemoveContext "b").1.Contexts.getD []) k =
         mapGet ((twoConfig.Contexts).getD []) k) :=
  ⟨by decide, by decide,
   RemoveContext_noncurrent twoConfig "b" (by decide) (by decide)⟩

/-- C5 (counterexample): `RemoveContext` on the current context can
return false while `Contexts` changes: the fallback scan runs `IsValid`
on the other entries, rewriting their hosts to normalized form even when
none of them qualifies. -/
theorem RemoveContext_false_mutates :
    (twoConfig.RemoveContext "a").2 = false ∧
    (twoConfig.RemoveContext "a").1.Contexts ≠ twoConfig.Contexts := by
  decide

/-- C5 (amended): when `RemoveContext` is called on the current context
(over a well-formed map, i.e. no duplicate keys): a true result leaves
`CurrentContext` naming an entry still present in `Contexts` whose
`IsValid` returns true; a false result leaves `CurrentContext` and the
key list of `Contexts` unchanged (no entry added or removed), though
visited entries may have had their `Host` normalized. -/
theorem RemoveContext_current_spec (c : Configuration) (name : String)
    (hcur : c.CurrentContext = name)
    (hnd : (((c.Contexts).getD []).map Prod.fst).Nodup) :
    ((c.RemoveContext name).2 = true →
      Option.map (fun e => (e.IsValid).2)
        (mapGet ((c.RemoveContext name).1.Contexts.getD [])
          ((c.RemoveContext name).1.CurrentContext)) = some true) ∧
    ((c.RemoveContext name).2 = false →
      (c.RemoveContext name).1.CurrentContext = c.CurrentContext ∧
      ((c.RemoveContext name).1.Contexts.getD []).map Prod.fst =
        ((c.Contexts).getD []).map Prod.fst) := by
  by_cases hmem : (mapGet ((c.Contexts).getD []) name).isSome = true
  · simp only [Configuration.RemoveContext, if_pos hmem, if_pos hcur]
    rcases hloop : findValidLoop name ((c.Contexts).getD []) with ⟨m', r⟩
    have hkeys : m'.map Prod.fst = ((c.Contexts).getD []).map Prod.fst := by
      have hk := findValidLoop_keys name ((c.Contexts).getD [])
      rw [hloop] at hk
      exact hk
    cases r with
    | some n =>
      simp only [hloop]
      constructor
      · intro _
        obtain ⟨hne, e, hmem', hval⟩ :=
          findValidLoop_found name ((c.Contexts).getD []) n (by rw [hloop])
        rw [hloop] at hmem'
        have hnd' : (m'.map Prod.fst).Nodup := by
          rw [hkeys]
          exact hnd
        have hget : mapGet m' n = some e := mapGet_of_mem_nodup m' n e hmem' hnd'
        have hdel : mapGet (mapDelete m' name) n = some e := by
          rw [mapGet_mapDelete_ne m' name n hne]
          exact hget
        simpa [Configuration.SetCurrent, hdel] using hval
      · intro hfalse
        simp at hfalse
    | none =>
      simp only [hloop]
      constructor
      · intro htrue
        simp at htrue
      · intro _
        exact ⟨trivial, by simpa using hkeys⟩
  · simp only [Configuration.RemoveContext, if_neg hmem]
    constructor
    · intro htrue
      simp at htrue
    · intro _
      exact ⟨trivial, trivial⟩

/-- Configuration whose current entry `"a"` has a valid sibling `"b"`. -/
def twoValidConfig : Configuration :=
  ⟨"a", some [("a", ClientConfiguration.zero), ("b", sampleValid)]⟩

/-- C5 (witness): `RemoveContext_current_spec` on `twoValidConfig`, where
removal of the current `"a"` succeeds by falling back to `"b"`. -/
theorem RemoveContext_current_spec_witness :
    twoValidConfig.CurrentContext = "a" ∧
    ((((twoValidConfig.Contexts).getD []).map Prod.fst).Nodup) ∧
    (((twoValidConfig.RemoveContext "a").2 = true →
      Option.map (fun e => (e.IsValid).2)
        (mapGet ((twoValidConfig.RemoveContext "a").1.Contexts.getD [])
          ((twoValidConfig.RemoveContext "a").1.CurrentContext)) = some true) ∧
     ((twoValidConfig.RemoveContext "a").2 = false →
      (twoValidConfig.RemoveContext "a").1.CurrentContext =
        twoValidConfig.CurrentContext ∧
      ((twoValidConfig.RemoveContext "a").1.Contexts.getD []).map Prod.fst =
        ((twoValidConfig.Contexts).getD []).map Prod.fst)) :=
  ⟨rfl, by decide, RemoveContext_current_spec twoValidConfig "a" rfl (by decide)⟩

/-- C8: `Clone` is a deep copy. Over the heap model, every address held
by the clone is fresh (allocated past the original heap), so writing any
value through a clone address never changes what any original entry's
address reads — mutating a cloned entry cannot affect the original. -/
theorem Clone_deep_copy (heap : List ClientConfiguration) (c : ConfigurationH)
    (hwf : ∀ p ∈ c.Contexts, p.2 < heap.length) :
    ∀ q ∈ ((ConfigurationH.Clone heap c).2).Contexts, ∀ w : ClientConfiguration,
      ∀ p ∈ c.Contexts,
        (((ConfigurationH.Clone heap c).1).set q.2 w)[p.2]? =
          ((ConfigurationH.Clone heap c).1)[p.2]? := by
  intro q hq w p hp
  apply List.getElem?_set_ne
  have h1 : heap.length ≤ q.2 := cloneLoop_fresh c.Contexts heap q hq
  have h2 : p.2 < heap.length := hwf p hp
  omega

/-- Heap holding one client configuration, for the clone witness. -/
def cloneHeap : List ClientConfiguration := [sampleValid]

/-- Pointer-level configuration whose single entry points at cell 0 of
`cloneHeap`. -/
def cloneConfigH : ConfigurationH := ⟨"m", [("a", 0)]⟩

/-- C8 (witness): `Clone_deep_copy` on a one-entry configuration — the
clone's entry lands at the fresh cell 1, and overwriting it leaves cell 0
(the original's entry) reading as before. -/
theorem Clone_deep_copy_witness :
    (∀ p ∈ cloneConfigH.Contexts, p.2 < cloneHeap.length) ∧
    ((("a", 1) ∈ ((ConfigurationH.Clone cloneHeap cloneConfigH).2).Contexts) ∧
     ((((ConfigurationH.Clone cloneHeap cloneConfigH).1).set 1
        ClientConfiguration.zero)[0]? =
       ((ConfigurationH.Clone cloneHeap cloneConfigH).1)[0]?)) :=
  ⟨by decide,
   by decide,
   Clone_deep_copy cloneHeap cloneConfigH (by decide) ("a", 1) (by decide)
     ClientConfiguration.zero ("a", 0) (by decide)⟩

end Lenses
